import Mathlib

/-!
Verification of the core of the fsspec AbstractFileSystem layer
(src/fsspec/spec.py) via a shallow embedding.

Paths are modelled as lists of characters (Python str), byte strings as
lists of naturals.  Each definition below embeds one function of the
source file; doc comments name the embedded symbol and its lines.
Generators are embedded as the list of their yielded values; unbounded
recursion (walk, expand_path) receives an explicit fuel parameter so
that every definition is executable by kernel reduction.
-/

/-- Python str, modelled as a list of characters. -/
abbrev Str := List Char

/-- Convenience: turn a Lean string literal into the model type. -/
def str (s : String) : Str := s.toList

instance exceptDecEq {ε α : Type} [DecidableEq ε] [DecidableEq α] : DecidableEq (Except ε α)
  | .ok a, .ok b =>
      if h : a = b then .isTrue (h ▸ rfl)
      else .isFalse (fun he => h (Except.ok.inj he))
  | .error a, .error b =>
      if h : a = b then .isTrue (h ▸ rfl)
      else .isFalse (fun he => h (Except.error.inj he))
  | .ok _, .error _ => .isFalse (fun h => Except.noConfusion h)
  | .error _, .ok _ => .isFalse (fun h => Except.noConfusion h)

/-- Python s.rstrip("/"): drop every trailing slash. -/
def pyRstripSlash (s : Str) : Str := ((s.reverse).dropWhile (fun c => c == '/')).reverse

/-- Python s.lstrip(chars): drop leading characters belonging to the set
(an empty set drops nothing, matching lstrip("")). -/
def pyLstripSet (chars : Str) (s : Str) : Str := s.dropWhile (fun c => chars.contains c)

/-- Python s.endswith("/"). -/
def pyEndsWithSlash (s : Str) : Bool := s.getLast? == some '/'

/-- Python s.rsplit("/", 1)[-1]: the part after the last slash (the whole
string when no slash occurs). -/
def lastComponent (s : Str) : Str := ((s.reverse).takeWhile (fun c => c != '/')).reverse

/-- Python s.rsplit("/", 1)[0] when a slash occurs: the part before the
last slash. -/
def beforeLastSlash (s : Str) : Str := (((s.reverse).dropWhile (fun c => c != '/')).drop 1).reverse

/-- glob.has_magic: true iff one of the characters *, ?, [ occurs
(re.search of the character class [*?[]). -/
def hasMagic (s : Str) : Bool := s.any (fun c => c == '*' || c == '?' || c == '[')

/-- The entry type of a listing record: the "type" key of the info dict. -/
inductive FType where
  | file
  | directory
  | other
deriving DecidableEq

/-- One listing record as returned by ls(detail=True).  The size field is
doubly optional: none models a dict without a "size" key, some none
models "size": None, some (some n) a concrete byte count.  This mirrors
the source, which distinguishes a missing key from None in info(). -/
structure FileInfo where
  name : Str
  size : Option (Option Nat)
  ftype : FType
deriving DecidableEq

/-- The Python exception kinds that the embedded code raises or catches.
fileNotFound and osError are the OSError family (IOError is an alias of
OSError in Python 3, and FileNotFoundError subclasses it); backendError
stands for any exception outside that family. -/
inductive Err where
  | fileNotFound
  | osError
  | valueError
  | backendError
  | recursionError
deriving DecidableEq

/-- The exception classes caught by walk's except (FileNotFoundError,
IOError) clause: the OSError family. -/
def walkCatches (e : Err) : Bool := e == .fileNotFound || e == .osError

/-- The class attributes of an AbstractFileSystem subclass used by the
path utilities: protocol (one or several scheme names) and root_marker. -/
structure FsAttrs where
  protos : List Str
  rootMarker : Str

/-- A filesystem handle: class attributes plus the single backend
primitive ls(path, detail=True), which may raise. -/
structure Fs extends FsAttrs where
  ls : Str → Except Err (List FileInfo)

/-- The protocol-stripping loop of AbstractFileSystem._strip_protocol
(lines 188-193): for each protocol name, drop a leading proto:// or
proto:: prefix. -/
def stripProtos : List Str → Str → Str
  | [], p => p
  | proto :: rest, p =>
      let p :=
        if (proto ++ str "://").isPrefixOf p then p.drop (proto.length + 3)
        else if (proto ++ str "::").isPrefixOf p then p.drop (proto.length + 2)
        else p
      stripProtos rest p

/-- AbstractFileSystem._strip_protocol (lines 179-196), scalar case:
strip protocol prefixes, drop trailing slashes, and collapse an empty
result to root_marker (the "path or cls.root_marker" line).
stringify_path is the identity on str inputs and is elided. -/
def stripProtocol (a : FsAttrs) (p : Str) : Str :=
  let p := pyRstripSlash (stripProtos a.protos p)
  if p = [] then a.rootMarker else p

/-- AbstractFileSystem._parent (lines 916-923). -/
def parentPath (a : FsAttrs) (p : Str) : Str :=
  let p := stripProtocol a (pyRstripSlash p)
  if p.contains '/' then a.rootMarker ++ pyLstripSet a.rootMarker (beforeLastSlash p)
  else a.rootMarker

/-- Set the "size" key to None when it is absent: the
if "size" not in out1[0] branch of info (lines 608-609). -/
def withDefaultSize (o : FileInfo) : FileInfo :=
  if o.size = none then { o with size := some none } else o

/-- AbstractFileSystem.info (lines 582-614): list the parent and filter
for the entry named path; on no hit fall back to ls(path) and classify:
exactly one match returns it (size defaulted), more than one match or a
nonempty listing synthesizes a directory entry, otherwise
FileNotFoundError.  Exceptions of either ls call propagate. -/
def infoOf (fs : Fs) (path0 : Str) : Except Err FileInfo :=
  let path := stripProtocol fs.toFsAttrs path0
  match fs.ls (parentPath fs.toFsAttrs path) with
  | .error e => .error e
  | .ok out =>
      match out.filter (fun o => decide (pyRstripSlash o.name = path)) with
      | o :: _ => .ok o
      | [] =>
          match fs.ls path with
          | .error e => .error e
          | .ok out =>
              let path := pyRstripSlash path
              let out1 := out.filter (fun o => decide (pyRstripSlash o.name = path))
              match out1 with
              | [o] => .ok (withDefaultSize o)
              | [] =>
                  if out.isEmpty then .error .fileNotFound
                  else .ok ⟨path, some (some 0), .directory⟩
              | _ => .ok ⟨path, some (some 0), .directory⟩

/-- AbstractFileSystem.exists (lines 573-580): info wrapped in a bare
try/except returning False on every exception. -/
def pyExists (fs : Fs) (p : Str) : Bool :=
  match infoOf fs p with
  | .ok _ => true
  | .error _ => false

/-- AbstractFileSystem.isfile (lines 640-645): type test swallowing any
exception. -/
def pyIsfile (fs : Fs) (p : Str) : Bool :=
  match infoOf fs p with
  | .ok i => i.ftype == .file
  | .error _ => false

/-- Python dict assignment d[k] = v on an insertion-ordered association
list: an existing key keeps its position and gets the new value, a new
key is appended. -/
def dinsert {α : Type} (d : List (Str × α)) (k : Str) (v : α) : List (Str × α) :=
  if d.any (fun kv => kv.1 == k) then d.map (fun kv => if kv.1 == k then (k, v) else kv)
  else d ++ [(k, v)]

/-- Python d.update(other): assign every pair of other into d in order. -/
def dUpdate {α : Type} (d other : List (Str × α)) : List (Str × α) :=
  other.foldl (fun acc kv => dinsert acc kv.1 kv.2) d

/-- Key-level view of dict assignment: adding key k leaves the key list
unchanged when k is present and appends it otherwise.  Used where the
source only consumes dict keys. -/
def keyInsert (ks : List Str) (k : Str) : List Str :=
  if ks.contains k then ks else ks ++ [k]

/-- Python set union out |= xs at key level: insert each element that is
not yet present. -/
def unionKeys (acc : List Str) (xs : List Str) : List Str :=
  xs.foldl keyInsert acc

/-- An insertion-ordered dict from name to listing record. -/
abbrev Dict := List (Str × FileInfo)

/-- One triple yielded by walk(detail=True): (path, dirs, files). -/
abbrev WTriple := Str × Dict × Dict

/-- The listing loop of walk (lines 398-411): bucket each record of one
listing into (full_dirs, dirs, files).  A directory other than the path
itself goes into full_dirs (by full path) and dirs (by last component);
an entry whose stripped name equals the path goes into files under the
empty key; anything else into files by last component. -/
def walkBucket (path : Str) (listing : List FileInfo) : Dict × Dict × Dict :=
  listing.foldl
    (fun acc info =>
      let pathname := pyRstripSlash info.name
      let name := lastComponent pathname
      if info.ftype = .directory ∧ pathname ≠ path then
        (dinsert acc.1 pathname info, dinsert acc.2.1 name info, acc.2.2)
      else if pathname = path then
        (acc.1, acc.2.1, dinsert acc.2.2 [] info)
      else
        (acc.1, acc.2.1, dinsert acc.2.2 name info))
    ([], [], [])

/-- AbstractFileSystem.walk (lines 367-424) as the sequence of yielded
triples.  The nested yield-from recursion is defunctionalised into an
explicit worklist, which produces the same depth-first pre-order; fuel
bounds the number of visited nodes so the definition is structural (the
source recursion is unbounded when maxdepth is None).  A listing failure
of the OSError family makes the generator return without yielding (the
source line return path, [], [] sets the invisible StopIteration value
of the generator, it does not yield); other exceptions propagate. -/
def walkStack (fs : Fs) : Nat → List (Str × Option Int) → Except Err (List WTriple)
  | _, [] => .ok []
  | 0, _ :: _ => .ok []
  | fuel + 1, (p0, maxdepth) :: rest =>
      let path := stripProtocol fs.toFsAttrs p0
      match fs.ls path with
      | .error e =>
          if walkCatches e then walkStack fs fuel rest else .error e
      | .ok listing =>
          let b := walkBucket path listing
          let self : WTriple := (path, b.2.1, b.2.2)
          let stop := match maxdepth with
            | some d => decide (d - 1 < 1)
            | none => false
          let children : List (Str × Option Int) :=
            if stop then []
            else b.1.map (fun kv => (kv.1, maxdepth.map (fun d => d - 1)))
          match walkStack fs fuel (children ++ rest) with
          | .error e => .error e
          | .ok trips => .ok (self :: trips)

/-- walk(path, maxdepth, detail=True): the yielded (path, dirs, files)
triples with dict-valued dirs and files. -/
def walkD (fs : Fs) (fuel : Nat) (p : Str) (maxdepth : Option Int) : Except Err (List WTriple) :=
  walkStack fs fuel [(p, maxdepth)]

/-- walk(path, maxdepth) without detail: the same triples with
list(dirs) and list(files), i.e. the dict keys (line 416). -/
def walkL (fs : Fs) (fuel : Nat) (p : Str) (maxdepth : Option Int) :
    Except Err (List (Str × List Str × List Str)) :=
  (walkD fs fuel p maxdepth).map
    (List.map (fun t => (t.1, t.2.1.map Prod.fst, t.2.2.map Prod.fst)))

/-- AbstractFileSystem.find (lines 426-457) with detail=False: drive walk
to completion, take dirs into files when withdirs, re-key every record by
its full name, fall back to [path] for a file root, and return the sorted
keys.  Only dict keys reach the detail=False result, so the embedding
tracks keys (values never change key order: Python dict update keeps the
first-insertion position). -/
def findKeys (fs : Fs) (fuel : Nat) (path0 : Str) (maxdepth : Option Int) (withdirs : Bool) :
    Except Err (List Str) :=
  let path := stripProtocol fs.toFsAttrs path0
  match walkD fs fuel path maxdepth with
  | .error e => .error e
  | .ok trips =>
      let out := trips.foldl
        (fun acc t =>
          let files := if withdirs then dUpdate t.2.2 t.2.1 else t.2.2
          files.foldl (fun a kv => keyInsert a kv.2.name) acc)
        []
      let out := if out = [] ∧ pyIsfile fs path then [path] else out
      .ok out

/-- Python string comparison: strict lexicographic order by code point,
a proper prefix preceding its extensions. -/
def lexLt : Str → Str → Bool
  | [], [] => false
  | [], _ :: _ => true
  | _ :: _, [] => false
  | a :: as, b :: bs =>
      if a.toNat < b.toNat then true
      else if b.toNat < a.toNat then false
      else lexLt as bs

/-- The reflexive order underlying Python sorted() on strings. -/
def strLe (a b : Str) : Prop := lexLt b a = false

instance : DecidableRel strLe := fun a b => instDecidableEqBool (lexLt b a) false

/-- Python sorted() on a collection of distinct strings: the unique
permutation sorted by the lexicographic order. -/
def pysort (l : List Str) : List Str := List.insertionSort strLe l

/-- find with sorted output (line 453-455), key level. -/
def findNames (fs : Fs) (fuel : Nat) (path0 : Str) (maxdepth : Option Int) (withdirs : Bool) :
    Except Err (List Str) :=
  (findKeys fs fuel path0 maxdepth withdirs).map pysort

/-- The maxdepth step of expand_path (line 859): left alone when falsy
(None or 0), otherwise decremented. -/
def expandMaxd (maxdepth : Option Int) : Option Int :=
  if maxdepth = none ∨ maxdepth = some 0 then maxdepth else maxdepth.map (fun d => d - 1)

/-- The body of the list branch of AbstractFileSystem.expand_path
(lines 857-878), processing the stripped paths one by one and
accumulating the result set (modelled as an insert-if-absent key list;
set order is irrelevant because the result is sorted).  The glob call of
the magic branch is a parameter: glob's pattern matching runs through
Python's re engine, enters expand_path only through its value, and every
theorem below holds for all of its possible behaviours.  The nested
recursive expand_path call of the magic branch is inlined (decrement of
maxdepth, recursion, emptiness check, sort).  Fuel decreases at every
step so the definition is structural; exhaustion maps to RecursionError. -/
def expandGo (globFn : Str → Except Err (List Str)) (fs : Fs) :
    Nat → List Str → Bool → Option Int → List Str → Except Err (List Str)
  | _, [], _, _, acc => .ok acc
  | 0, _ :: _, _, _, _ => .error .recursionError
  | fuel + 1, p :: rest, rec, maxd, acc =>
      if hasMagic p then
        match globFn p with
        | .error e => .error e
        | .ok bit =>
            let acc := unionKeys acc bit
            if rec then
              match expandGo globFn fs fuel (bit.map (stripProtocol fs.toFsAttrs)) rec (expandMaxd maxd) [] with
              | .error e => .error e
              | .ok inner =>
                  if inner = [] then .error .fileNotFound
                  else expandGo globFn fs fuel rest rec maxd (unionKeys acc (pysort inner))
            else expandGo globFn fs fuel rest rec maxd acc
      else
        match (if rec then (findNames fs fuel p maxd true).map (unionKeys acc) else .ok acc) with
        | .error e => .error e
        | .ok acc =>
            let acc :=
              if ¬ acc.contains p ∧ (rec = false ∨ pyExists fs p) then acc ++ [p] else acc
            expandGo globFn fs fuel rest rec maxd acc

/-- AbstractFileSystem.expand_path (lines 852-881) on a list argument:
decrement maxdepth unless it is None or 0, strip every path, accumulate
the union, raise FileNotFoundError on an empty result, return the sorted
list. -/
def expandLevel (globFn : Str → Except Err (List Str)) (fs : Fs) (fuel : Nat)
    (paths : List Str) (rec : Bool) (maxdepth : Option Int) : Except Err (List Str) :=
  match expandGo globFn fs fuel (paths.map (stripProtocol fs.toFsAttrs)) rec (expandMaxd maxdepth) [] with
  | .error e => .error e
  | .ok out => if out = [] then .error .fileNotFound else .ok (pysort out)

/-- expand_path on a scalar string: the source wraps it into a
singleton list. -/
def expandPathStr (globFn : Str → Except Err (List Str)) (fs : Fs) (fuel : Nat)
    (p : Str) (rec : Bool) (maxdepth : Option Int) : Except Err (List Str) :=
  expandLevel globFn fs fuel [p] rec maxdepth

/-- AbstractFileSystem.rm (lines 897-914): the sequence of rm_file calls,
namely the expansion of the path argument traversed in reversed order. -/
def rmOrder (globFn : Str → Except Err (List Str)) (fs : Fs) (fuel : Nat)
    (p : Str) (rec : Bool) (maxdepth : Option Int) : Except Err (List Str) :=
  (expandPathStr globFn fs fuel p rec maxdepth).map List.reverse

/-- The index of the first occurrence of a string in a list. -/
def idxOf (x : Str) : List Str → Nat
  | [] => 0
  | y :: t => if y = x then 0 else idxOf x t + 1

/-- The literal branch of AbstractFileSystem.glob (lines 503-527): record
whether the original path ends with a slash, strip the protocol, and when
the stripped pattern carries no magic character and no trailing slash was
present, return [path] if the path exists and [] otherwise.  Patterns
with magic characters or a trailing slash continue into find plus a
Python regular expression and are outside this fragment (none). -/
def globLit (fs : Fs) (p0 : Str) : Option (List Str) :=
  let ends := pyEndsWithSlash p0
  let path := stripProtocol fs.toFsAttrs p0
  if hasMagic path then none
  else if ends then none
  else some (if pyExists fs path then [path] else [])

/-- The keyword options passed to a filesystem construction call:
the skip_instance_cache key (absent by default) plus the remaining
options collapsed to an opaque code. -/
structure Kw where
  skip : Option Bool
  rest : Nat
deriving DecidableEq

/-- The tokenize inputs of _Cached.__call__ (lines 65-67): class
identity, recorded pid, thread id, positional args, extra tokenize
attributes and the processed keyword options (still containing
skip_instance_cache, which is popped only afterwards).  Modelled from the
spec: tokenize of fsspec/utils.py is a content address, so equal inputs
give equal tokens; the embedding uses the tuple itself. -/
abbrev Token := Nat × Nat × Nat × Nat × List Nat × Kw

/-- A filesystem class as seen by the caching metaclass: identity,
cachable flag, extra tokenize attribute values and the configuration
defaulting step apply_config applied to the keyword options. -/
structure Cls where
  id : Nat
  cachable : Bool
  extraTokens : List Nat
  applyConfig : Kw → Kw

/-- The per-class state of the instance cache: the token-to-handle map,
the recorded pid, and an allocation counter modelling object identity
(construction returns the handle next and increments it, so distinct
constructions are physically distinct). -/
structure CacheState where
  cache : List (Token × Nat)
  pid : Nat
  next : Nat

/-- Dictionary lookup in the instance cache. -/
def cacheGet : List (Token × Nat) → Token → Option Nat
  | [], _ => none
  | (k, v) :: rest, t => if k = t then some v else cacheGet rest t

/-- _Cached.__call__ (lines 60-87): apply config defaults, compute the
token from the recorded pid and current thread id, pop
skip_instance_cache, clear the cache on a pid change, return the cached
handle when cachable and not skipped, otherwise construct a fresh handle
and store it unless skipped or not cachable. -/
def cachedCall (cls : Cls) (curPid curTid : Nat) (st : CacheState) (args : Nat) (kw : Kw) :
    Nat × CacheState :=
  let kw := cls.applyConfig kw
  let token : Token := (cls.id, st.pid, curTid, args, cls.extraTokens, kw)
  let skip := kw.skip.getD false
  let st := if curPid ≠ st.pid then { st with cache := [], pid := curPid } else st
  match (if ¬ skip ∧ cls.cachable then cacheGet st.cache token else none) with
  | some h => (h, st)
  | none =>
      (st.next,
       { st with
         cache := if cls.cachable ∧ ¬ skip then (token, st.next) :: st.cache else st.cache,
         next := st.next + 1 })

/-- The cache-related state of one filesystem handle: _intrans,
_invalidated_caches_in_transaction and the DirCache content (an
insertion-ordered map from path to listing). -/
structure FsState where
  intrans : Bool
  pendingInvalidations : List (Option Str)
  dircache : List (Str × List FileInfo)
deriving DecidableEq

/-- AbstractFileSystem.invalidate_cache (lines 248-263): the base class
only records the path while a transaction is active; it never touches the
dircache. -/
def invalidateCache (s : FsState) (path : Option Str) : FsState :=
  if s.intrans then { s with pendingInvalidations := s.pendingInvalidations ++ [path] }
  else s

/-- File open modes accepted by AbstractBufferedFile (line 1304). -/
inductive Mode where
  | rb
  | wb
  | ab
deriving DecidableEq

/-- The backend upload primitives under a buffered file:
whether _initiate_upload raises, and the value returned by
_upload_chunk(final) (none models Python None; the base class
implementations never raise and return None). -/
structure Backend where
  initiateFails : Bool
  uploadChunk : Bool → Option Bool

/-- The write-mode half of the AbstractBufferedFile state (the else
branch of the constructor, lines 1313-1317, plus the common fields):
buffer, offset, forced, position, block size and path. -/
structure WFile where
  mode : Mode
  closed : Bool
  forced : Bool
  buffer : List Nat
  loc : Nat
  offset : Option Nat
  blocksize : Nat
  path : Str
deriving DecidableEq

/-- AbstractBufferedFile.flush (lines 1406-1446): reject on closed or on
a repeated force, record the force, no-op in read mode or on a small
unforced buffer, initialise the upload once (offset 0; a raising
_initiate_upload closes the file and propagates, the mutation preceding
the raise is not observable here), then upload the chunk and, unless the
backend answered the not-ready sentinel False, advance offset and reset
the buffer. -/
def wflush (bk : Backend) (force : Bool) (f : WFile) : Except Err WFile :=
  if f.closed then .error .valueError
  else if force ∧ f.forced then .error .valueError
  else
    let f := if force then { f with forced := true } else f
    if ¬ (f.mode = .wb ∨ f.mode = .ab) then .ok f
    else if ¬ force ∧ f.buffer.length < f.blocksize then .ok f
    else
      let needInit := f.offset = none
      let f := if needInit then { f with offset := some 0 } else f
      if needInit ∧ bk.initiateFails then .error .backendError
      else if bk.uploadChunk force ≠ some false then
        .ok { f with offset := some (f.offset.getD 0 + f.buffer.length), buffer := [] }
      else .ok f

/-- AbstractBufferedFile.write (lines 1382-1404): reject outside write
mode, on a closed file, or after a force flush; append to the buffer,
advance loc, auto-flush once the buffer reaches the block size, and
return the number of accepted bytes. -/
def bwrite (bk : Backend) (f : WFile) (data : List Nat) : Except Err (Nat × WFile) :=
  if ¬ (f.mode = .wb ∨ f.mode = .ab) then .error .valueError
  else if f.closed then .error .valueError
  else if f.forced then .error .valueError
  else
    let out := data.length
    let f := { f with buffer := f.buffer ++ data, loc := f.loc + out }
    if f.blocksize ≤ f.buffer.length then
      match wflush bk false f with
      | .error e => .error e
      | .ok f2 => .ok (out, f2)
    else .ok (out, f)

/-- AbstractBufferedFile.close (lines 1560-1579) for the write-mode half:
a closed file is left untouched; otherwise flush with force unless
already forced, invalidate the dircache entries of the path and its
parent on the owning filesystem, and mark the file closed.  The
_unclosable early return (absent attribute by default) is elided; the
read-mode branch only drops the read cache. -/
def wclose (a : FsAttrs) (bk : Backend) (f : WFile) (fst : FsState) :
    Except Err (WFile × FsState) :=
  if f.closed then .ok (f, fst)
  else if f.mode = .rb then .ok ({ f with closed := true }, fst)
  else
    match (if ¬ f.forced then wflush bk true f else .ok f) with
    | .error e => .error e
    | .ok f2 =>
        let fst := invalidateCache fst (some f2.path)
        let fst := invalidateCache fst (some (parentPath a f2.path))
        .ok ({ f2 with closed := true }, fst)

/-- The read-mode half of the AbstractBufferedFile state (the rb branch
of the constructor, lines 1306-1312): the remote content stands in for
details plus the byte-range cache, size is its length. -/
structure RFile where
  mode : Mode
  closed : Bool
  content : List Nat
  loc : Nat
  blocksize : Nat
deriving DecidableEq

/-- self.size of a read-mode file. -/
def RFile.size (f : RFile) : Nat := f.content.length

/-- Modelled from the spec: the cache._fetch call of read (the cache
strategies live in fsspec/caching.py, outside this tree).  Per spec 4.5
the cache returns the requested byte range, clamped to the file size. -/
def fetchRange (content : List Nat) (start : Nat) (stop : Int) : List Nat :=
  (content.drop start).take (min stop (content.length : Int) - (start : Int)).toNat

/-- AbstractBufferedFile.read (lines 1467-1489): reject outside read mode
or on a closed file, a negative length means to the end, length zero
short-circuits, otherwise fetch [loc, loc+length) through the cache and
advance loc by the number of bytes obtained. -/
def bread (f : RFile) (length : Int) : Except Err (List Nat × RFile) :=
  if ¬ f.mode = .rb then .error .valueError
  else
    let length : Int := if length < 0 then (f.size : Int) - (f.loc : Int) else length
    if f.closed then .error .valueError
    else if length = 0 then .ok ([], f)
    else
      let out := fetchRange f.content f.loc ((f.loc : Int) + length)
      .ok (out, { f with loc := f.loc + out.length })

/-- AbstractBufferedFile.seek (lines 1356-1380): only legal in read mode
(ESPIPE otherwise), whence selects absolute, relative or end-relative
positioning, and a negative target is rejected. -/
def bseek (f : RFile) (loc0 : Int) (whence : Nat) : Except Err (Nat × RFile) :=
  if ¬ f.mode = .rb then .error .osError
  else
    match (match whence with
           | 0 => some loc0
           | 1 => some ((f.loc : Int) + loc0)
           | 2 => some ((f.size : Int) + loc0)
           | _ => none) with
    | none => .error .valueError
    | some nloc =>
        if nloc < 0 then .error .valueError
        else .ok (nloc.toNat, { f with loc := nloc.toNat })

/-- Python hay.find(pat): the least index at which pat occurs as a
contiguous run (0 for an empty pat), none standing for -1. -/
def pyFind (hay pat : List Nat) : Option Nat :=
  if pat.isPrefixOf hay then some 0
  else
    match hay with
    | [] => none
    | _ :: t => (pyFind t pat).map (fun i => i + 1)

/-- The blocks or self.blocksize resolution of readuntil (line 1518):
a None or zero blocks argument falls back to the block size. -/
def resolveBlocks (blocks : Option Nat) (f : RFile) : Nat :=
  match blocks with
  | some b => if b = 0 then f.blocksize else b
  | none => f.blocksize

/-- AbstractBufferedFile.readuntil (lines 1501-1527): read block after
block, scan each block for the delimiter, and on a hit keep the block
prefix through the delimiter, seek back to just after it and stop; at
end of file return what was gathered.  The while loop advances loc by at
least one byte per round (or stops), and fuel bounds the rounds so the
definition is structural. -/
def readuntil (char : List Nat) (blocks : Option Nat) : Nat → RFile → Except Err (List Nat × RFile)
  | 0, f => .ok ([], f)
  | fuel + 1, f =>
      let start := f.loc
      match bread f (Int.ofNat (resolveBlocks blocks f)) with
      | .error e => .error e
      | .ok (part, f1) =>
          if part = [] then .ok ([], f1)
          else
            match pyFind part char with
            | some i =>
                (match bseek f1 (Int.ofNat (start + i + char.length)) 0 with
                 | .error e => .error e
                 | .ok (_, f2) => .ok (part.take (i + char.length), f2))
            | none =>
                match readuntil char blocks fuel f1 with
                | .error e => .error e
                | .ok (rest, f2) => .ok (part ++ rest, f2)

/-- The prefix of a byte sequence through the first occurrence of the
byte b, inclusive (the whole sequence when b is absent): what a
delimiter-bounded read has to return. -/
def firstSegIncl (b : Nat) : List Nat → List Nat
  | [] => []
  | x :: xs => if x = b then [x] else x :: firstSegIncl b xs

/-- The prefix of a byte sequence through the first occurrence of the
pattern, inclusive (the whole sequence when the pattern is absent). -/
def endAtFirstOcc (hay pat : List Nat) : List Nat :=
  match pyFind hay pat with
  | some i => hay.take (i + pat.length)
  | none => hay

/-- A filesystem whose every listing raises FileNotFoundError. -/
def efs : Fs := { protos := [str "abstract"], rootMarker := [], ls := fun _ => .error .fileNotFound }

/-- A filesystem whose every listing raises a non-OSError backend
exception. -/
def befs : Fs := { protos := [str "abstract"], rootMarker := [], ls := fun _ => .error .backendError }

/-- A filesystem where the root lists to an empty directory and the
directory a contains only a/b: listing the parent of a misses a, listing
a yields an entry not named a. -/
def fs2 : Fs :=
  { protos := [str "abstract"], rootMarker := [],
    ls := fun p =>
      if p = [] then .ok []
      else if p = str "a" then .ok [⟨str "a/b", some (some 1), .file⟩]
      else .error .fileNotFound }

/-- A filesystem whose root contains the single file a. -/
def gfs : Fs :=
  { protos := [str "abstract"], rootMarker := [],
    ls := fun p =>
      if p = [] then .ok [⟨str "a", some (some 3), .file⟩]
      else .error .fileNotFound }

/-- A filesystem with directory a holding the single file a/b. -/
def fs8 : Fs :=
  { protos := [str "abstract"], rootMarker := [],
    ls := fun p =>
      if p = [] then .ok [⟨str "a", some (some 0), .directory⟩]
      else if p = str "a" then .ok [⟨str "a/b", some (some 1), .file⟩]
      else .error .fileNotFound }

/-- A glob stand-in for witnesses that never run the pattern branch. -/
def globFn0 : Str → Except Err (List Str) := fun _ => .error .fileNotFound

/-- A backend whose upload primitives behave like the base class:
initiation never fails, upload_chunk returns None. -/
def bk0 : Backend := { initiateFails := false, uploadChunk := fun _ => none }

/-- A write-mode file on which a force flush has completed. -/
def wf0 : WFile :=
  { mode := .wb, closed := false, forced := true, buffer := [], loc := 0,
    offset := some 0, blocksize := 5, path := str "x/y" }

/-- A handle state outside a transaction holding one cached listing. -/
def st3 : FsState := { intrans := false, pendingInvalidations := [], dircache := [(str "a", [])] }

/-- A read-mode file over the bytes of abX with block size one. -/
def rfc : RFile := { mode := .rb, closed := false, content := [97, 98, 88], loc := 0, blocksize := 1 }

/-- A read-mode file holding a newline, two letters and a newline. -/
def rf10 : RFile := { mode := .rb, closed := false, content := [10, 65, 10, 66], loc := 0, blocksize := 2 }

/-- A cachable class with identity configuration defaults. -/
def cls0 : Cls := { id := 0, cachable := true, extraTokens := [], applyConfig := fun k => k }

/-- An empty instance-cache state owned by process 7. -/
def cst0 : CacheState := { cache := [], pid := 7, next := 0 }

/-- Keyword options without skip_instance_cache. -/
def kw0 : Kw := { skip := none, rest := 0 }

theorem lexLt_irrefl : ∀ a : Str, lexLt a a = false := by
  intro a
  induction a with
  | nil => rfl
  | cons c as ih => simp [lexLt, ih]

theorem lexLt_asymm : ∀ a b : Str, lexLt a b = true → lexLt b a = false := by
  intro a
  induction a with
  | nil =>
      intro b h
      cases b with
      | nil => simp [lexLt] at h
      | cons x xs => simp [lexLt]
  | cons c as ih =>
      intro b h
      cases b with
      | nil => simp [lexLt] at h
      | cons x xs =>
          simp only [lexLt] at h ⊢
          by_cases h1 : c.toNat < x.toNat
          · simp only [h1, if_true] at h
            have h2 : ¬ x.toNat < c.toNat := Nat.lt_asymm h1
            simp [h1, h2]
          · by_cases h2 : x.toNat < c.toNat
            · simp [h1, h2] at h
            · simp only [h1, h2, if_false] at h
              simp [h1, h2, ih _ h]

theorem lexLt_trans : ∀ a b c : Str, lexLt a b = true → lexLt b c = true → lexLt a c = true := by
  intro a
  induction a with
  | nil =>
      intro b c hab hbc
      cases b with
      | nil => simp [lexLt] at hab
      | cons x xs =>
          cases c with
          | nil => simp [lexLt] at hbc
          | cons y ys => simp [lexLt]
  | cons p as ih =>
      intro b c hab hbc
      cases b with
      | nil => simp [lexLt] at hab
      | cons x xs =>
          cases c with
          | nil => simp [lexLt] at hbc
          | cons y ys =>
              simp only [lexLt] at hab hbc ⊢
              by_cases h1 : p.toNat < x.toNat
              · by_cases h2 : x.toNat < y.toNat
                · have : p.toNat < y.toNat := Nat.lt_trans h1 h2
                  simp [this]
                · by_cases h3 : y.toNat < x.toNat
                  · simp [h2, h3] at hbc
                  · have hxy : x.toNat = y.toNat := Nat.le_antisymm (Nat.le_of_not_lt h3) (Nat.le_of_not_lt h2)
                    simp [hxy ▸ h1]
              · by_cases h2 : x.toNat < p.toNat
                · simp [h1, h2] at hab
                · have hpx : p.toNat = x.toNat := Nat.le_antisymm (Nat.le_of_not_lt h2) (Nat.le_of_not_lt h1)
                  simp only [h1, h2, if_false] at hab
                  by_cases h3 : x.toNat < y.toNat
                  · have : p.toNat < y.toNat := hpx ▸ h3
                    simp [this]
                  · by_cases h4 : y.toNat < x.toNat
                    · simp [h3, h4] at hbc
                    · simp only [h3, h4, if_false] at hbc
                      have h5 : ¬ p.toNat < y.toNat := by omega
                      have h6 : ¬ y.toNat < p.toNat := by omega
                      simp [h5, h6, ih _ _ hab hbc]


theorem char_toNat_inj {a b : Char} (h : a.toNat = b.toNat) : a = b := Char.ext (UInt32.ext h)

theorem lexLt_connex : ∀ a b : Str, a ≠ b → lexLt a b = true ∨ lexLt b a = true := by
  intro a
  induction a with
  | nil =>
      intro b hne
      cases b with
      | nil => exact absurd rfl hne
      | cons x xs => left; simp [lexLt]
  | cons c as ih =>
      intro b hne
      cases b with
      | nil => right; simp [lexLt]
      | cons x xs =>
          by_cases h1 : c.toNat < x.toNat
          · left; simp [lexLt, h1]
          · by_cases h2 : x.toNat < c.toNat
            · right; simp [lexLt, h2]
            · have hcx : c = x := char_toNat_inj (by omega)
              subst hcx
              have hne2 : as ≠ xs := fun h => hne (h ▸ rfl)
              rcases ih xs hne2 with h | h
              · left; simp [lexLt, h1, h2, h]
              · right; simp [lexLt, h1, h2, h]

instance : IsTotal Str strLe := by
  constructor
  intro a b
  by_cases h : lexLt b a = true
  · right
    exact lexLt_asymm _ _ h
  · left
    exact eq_false_of_ne_true h

instance : IsTrans Str strLe := by
  constructor
  intro a b c hab hbc
  by_cases hac : lexLt c a = true
  · exfalso
    by_cases hba : b = a
    · rw [hba] at hbc
      rw [hbc] at hac
      exact Bool.noConfusion hac
    · rcases lexLt_connex a b (fun h => hba h.symm) with h1 | h1
      · have h2 := lexLt_trans _ _ _ hac h1
        rw [hbc] at h2
        exact Bool.noConfusion h2
      · rw [hab] at h1
        exact Bool.noConfusion h1
  · exact eq_false_of_ne_true hac

theorem prefix_lexLt : ∀ a b : Str, a <+: b → a ≠ b → lexLt a b = true := by
  intro a
  induction a with
  | nil =>
      intro b _ hne
      cases b with
      | nil => exact absurd rfl hne
      | cons x xs => simp [lexLt]
  | cons c as ih =>
      intro b hpre hne
      obtain ⟨t, ht⟩ := hpre
      cases b with
      | nil => exact absurd ht (by simp)
      | cons x xs =>
          have hcx : c = x := by
            have := congrArg (fun l => List.head? l) ht
            simpa using this
          subst hcx
          have hxs : as ++ t = xs := by
            have := congrArg List.tail ht
            simpa using this
          have hpre2 : as <+: xs := ⟨t, hxs⟩
          have hne2 : as ≠ xs := by
            intro h
            exact hne (by rw [h])
          simp [lexLt, ih xs hpre2 hne2]

theorem revsorted_idx :
    ∀ l : List Str, List.Pairwise (fun x y => lexLt x y = false) l →
      ∀ a b : Str, a ∈ l → b ∈ l → lexLt a b = true → idxOf b l < idxOf a l := by
  intro l
  induction l with
  | nil => intro _ a b ha; exact absurd ha (by simp)
  | cons h t ih =>
      intro hp a b ha hb hab
      rw [List.pairwise_cons] at hp
      by_cases hhb : h = b
      · have hne : a ≠ h := by
          intro he
          rw [he, hhb] at hab
          rw [lexLt_irrefl b] at hab
          exact Bool.noConfusion hab
        have hna : ¬ h = a := fun he => hne he.symm
        have e1 : idxOf b (h :: t) = 0 := by simp [idxOf, hhb]
        have e2 : idxOf a (h :: t) = idxOf a t + 1 := by simp [idxOf, hna]
        rw [e1, e2]
        omega
      · by_cases hha : h = a
        · have hbt : b ∈ t := by
            rcases List.mem_cons.mp hb with h1 | h1
            · exact absurd h1.symm hhb
            · exact h1
          have := hp.1 b hbt
          rw [hha] at this
          rw [this] at hab
          exact Bool.noConfusion hab
        · have hat : a ∈ t := by
            rcases List.mem_cons.mp ha with h1 | h1
            · exact absurd h1.symm hha
            · exact h1
          have hbt : b ∈ t := by
            rcases List.mem_cons.mp hb with h1 | h1
            · exact absurd h1.symm hhb
            · exact h1
          simp only [idxOf, if_neg hha, if_neg hhb]
          have := ih hp.2 a b hat hbt hab
          omega

theorem expandLevel_sorted (globFn : Str → Except Err (List Str)) (fs : Fs) (fuel : Nat)
    (paths : List Str) (rec : Bool) (maxdepth : Option Int) (s : List Str)
    (h : expandLevel globFn fs fuel paths rec maxdepth = .ok s) : List.Sorted strLe s := by
  unfold expandLevel at h
  split at h
  · exact absurd h (by simp)
  · split at h
    · exact absurd h (by simp)
    · have := Except.ok.inj h
      rw [← this]
      exact List.sorted_insertionSort strLe _

/-- C8: rm(path, recursive, maxdepth) first expands the argument through
expand_path into a lexicographically sorted list and removes the paths in
reverse of that order, so a path that is a proper prefix of another (the
parent) is removed after it (the child). -/
theorem rm_children_before_parents
    (globFn : Str → Except Err (List Str)) (fs : Fs) (fuel : Nat) (p : Str)
    (rec : Bool) (maxdepth : Option Int) (l : List Str)
    (h : rmOrder globFn fs fuel p rec maxdepth = .ok l)
    (a b : Str) (ha : a ∈ l) (hb : b ∈ l) (hpre : a <+: b) (hne : a ≠ b) :
    idxOf b l < idxOf a l := by
  have hs : ∃ s, expandPathStr globFn fs fuel p rec maxdepth = .ok s ∧ l = s.reverse := by
    unfold rmOrder at h
    cases he : expandPathStr globFn fs fuel p rec maxdepth with
    | error e => rw [he] at h; exact absurd h (by simp [Except.map])
    | ok s =>
        rw [he] at h
        simp only [Except.map] at h
        exact ⟨s, rfl, (Except.ok.inj h).symm⟩
  obtain ⟨s, hs1, hl⟩ := hs
  unfold expandPathStr at hs1
  have hsort : List.Sorted strLe s := expandLevel_sorted globFn fs fuel [p] rec maxdepth s hs1
  have hpair : List.Pairwise (fun x y => lexLt x y = false) l := by
    rw [hl, List.pairwise_reverse]
    exact hsort
  exact revsorted_idx l hpair a b ha hb (prefix_lexLt a b hpre hne)

/-- C8 witness: on a filesystem with directory a holding file a/b, a
recursive rm of a removes a/b first and a second. -/
theorem rm_children_before_parents_witness :
    idxOf (str "a/b") [str "a/b", str "a"] < idxOf (str "a") [str "a/b", str "a"] :=
  rm_children_before_parents globFn0 fs8 9 (str "a") true none [str "a/b", str "a"]
    (by decide) (str "a") (str "a/b") (by decide) (by decide)
    ⟨str "/b", by decide⟩ (by decide)

theorem dropWhile_head_not {α : Type} (q : α → Bool) :
    ∀ l : List α, ∀ c, (l.dropWhile q).head? = some c → q c = false := by
  intro l
  induction l with
  | nil => intro c h; exact absurd h (by simp)
  | cons x t ih =>
      intro c h
      by_cases hx : q x
      · rw [List.dropWhile_cons_of_pos hx] at h
        exact ih c h
      · rw [List.dropWhile_cons_of_neg hx] at h
        have : c = x := by
          have := Option.some.inj h
          exact this.symm
        rw [this]
        exact eq_false_of_ne_true hx

theorem rstrip_no_trailing (s : Str) : pyEndsWithSlash (pyRstripSlash s) = false := by
  unfold pyEndsWithSlash pyRstripSlash
  rw [List.getLast?_reverse]
  cases hh : (List.dropWhile (fun c => c == '/') s.reverse).head? with
  | none => rfl
  | some c =>
      have hq := dropWhile_head_not (fun c => c == '/') s.reverse c hh
      have hne : c ≠ '/' := by
        intro he
        rw [he] at hq
        simp at hq
      exact beq_eq_false_iff_ne.mpr (fun he => hne (Option.some.inj he))

/-- C5 counterexample: for the abstract base class (root_marker is the
empty string) the input "/" strips to the empty string, so the result of
_strip_protocol is empty, contradicting the never-empty part of the
claim. -/
theorem strip_protocol_empty_counterexample :
    stripProtocol { protos := [str "abstract"], rootMarker := [] } (str "/") = [] := by decide

/-- C5 (amended): _strip_protocol removes a leading proto prefix for the
protocol of the class, removes all trailing slashes, and collapses an
empty stripped result to root_marker; hence the result is nonempty
whenever root_marker is, but equals the empty root_marker otherwise. -/
theorem strip_protocol_spec (a : FsAttrs) (p : Str) :
    (stripProtocol a p = pyRstripSlash (stripProtos a.protos p) ∨
      stripProtocol a p = a.rootMarker) ∧
    (pyRstripSlash (stripProtos a.protos p) = [] → stripProtocol a p = a.rootMarker) ∧
    (a.rootMarker ≠ [] → stripProtocol a p ≠ []) ∧
    (pyEndsWithSlash (stripProtocol a p) = false ∨ stripProtocol a p = a.rootMarker) ∧
    (∀ proto rest, a.protos = [proto] →
      stripProtos a.protos ((proto ++ str "://") ++ rest) = rest) := by
  refine ⟨?_, ?_, ?_, ?_, ?_⟩
  · unfold stripProtocol
    by_cases h : pyRstripSlash (stripProtos a.protos p) = []
    · right; simp [h]
    · left; simp [h]
  · intro h
    unfold stripProtocol
    simp [h]
  · intro hrm
    unfold stripProtocol
    by_cases h : pyRstripSlash (stripProtos a.protos p) = []
    · simpa [h] using hrm
    · simp [h]
  · unfold stripProtocol
    by_cases h : pyRstripSlash (stripProtos a.protos p) = []
    · right; simp [h]
    · left; simp [h, rstrip_no_trailing]
  · intro proto rest hp
    rw [hp]
    unfold stripProtos
    have hpre : (proto ++ str "://").isPrefixOf ((proto ++ str "://") ++ rest) = true :=
      List.isPrefixOf_iff_prefix.mpr (List.prefix_append _ _)
    have hlen : (proto ++ str "://").length = proto.length + 3 := by
      rw [List.length_append]
      rfl
    simp only [hpre, if_true]
    rw [← hlen, List.drop_left]
    rfl

/-- C5 witness: with root_marker "/" the input "///" strips to the empty
string and the result collapses to the root marker. -/
theorem strip_protocol_spec_witness :
    stripProtocol { protos := [str "abstract"], rootMarker := str "/" } (str "///") = str "/" :=
  (strip_protocol_spec ⟨[str "abstract"], str "/"⟩ (str "///")).2.1 (by decide)

/-- C3 counterexample: outside a transaction, invalidate_cache(None)
leaves a nonempty dircache untouched instead of emptying it. -/
theorem invalidate_cache_counterexample :
    (invalidateCache st3 none).dircache = [(str "a", [])] ∧
    [(str "a", ([] : List FileInfo))] ≠ ([] : List (Str × List FileInfo)) :=
  ⟨rfl, by decide⟩

/-- C3 (amended): the base invalidate_cache never modifies the dircache;
outside a transaction it is a no-op, and while a transaction is active it
only appends the path to the pending invalidation list replayed by
end_transaction.  Emptying the cache is left to subclass overrides. -/
theorem invalidate_cache_behavior (s : FsState) (p : Option Str) :
    (invalidateCache s p).dircache = s.dircache ∧
    (s.intrans = false → invalidateCache s p = s) ∧
    (s.intrans = true → invalidateCache s p =
      { s with pendingInvalidations := s.pendingInvalidations ++ [p] }) := by
  unfold invalidateCache
  by_cases h : s.intrans
  · simp [h]
  · simp [h]

/-- C3 witness: the behaviour theorem applied to a concrete handle state
holding one cached listing, outside a transaction. -/
theorem invalidate_cache_behavior_witness :
    (invalidateCache st3 none).dircache = st3.dircache ∧
    (st3.intrans = false → invalidateCache st3 none = st3) ∧
    (st3.intrans = true → invalidateCache st3 none =
      { st3 with pendingInvalidations := st3.pendingInvalidations ++ [none] }) :=
  invalidate_cache_behavior st3 none

/-- C9: exists(p) is true exactly when info(p) returns normally and false
whenever info raises, whatever the exception; in particular any failure
of the first backend listing call, including a non-OSError backend
error, is reported as non-existence. -/
theorem exists_swallows_errors (fs : Fs) (p : Str) :
    (pyExists fs p = true ↔ ∃ i, infoOf fs p = .ok i) ∧
    (∀ e, infoOf fs p = .error e → pyExists fs p = false) ∧
    (∀ e, fs.ls (parentPath fs.toFsAttrs (stripProtocol fs.toFsAttrs p)) = .error e →
      pyExists fs p = false) := by
  refine ⟨?_, ?_, ?_⟩
  · cases h : infoOf fs p with
    | ok i => simp [pyExists, h]
    | error e => simp [pyExists, h]
  · intro e he
    simp [pyExists, he]
  · intro e he
    have h2 : infoOf fs p = .error e := by
      simp only [infoOf, he]
    simp [pyExists, h2]

/-- C9 witness: on a filesystem whose listings all raise a backend error,
exists returns false. -/
theorem exists_swallows_errors_witness : pyExists befs (str "x") = false :=
  (exists_swallows_errors befs (str "x")).2.2 .backendError rfl

/-- C1 counterexample: walking a missing path yields no triples at all,
not the single empty triple the claim asserts (the source line
return path, [], [] inside the generator only sets the invisible
StopIteration value). -/
theorem walk_missing_counterexample :
    walkD efs 1 (str "a") none = .ok [] ∧
    walkL efs 1 (str "a") none = .ok [] ∧
    (.ok [] : Except Err (List WTriple)) ≠ .ok [(str "a", [], [])] :=
  ⟨rfl, rfl, fun h => absurd (Except.ok.inj h) (by decide)⟩

/-- C1 (amended): when ls of the (stripped) root raises an error of the
caught OSError family, the walk generator terminates without yielding
anything, with and without detail. -/
theorem walk_missing_yields_nothing (fs : Fs) (fuel : Nat) (p : Str) (md : Option Int) (e : Err)
    (hls : fs.ls (stripProtocol fs.toFsAttrs p) = .error e) (hc : walkCatches e = true) :
    walkD fs (fuel + 1) p md = .ok [] ∧ walkL fs (fuel + 1) p md = .ok [] := by
  have h1 : walkD fs (fuel + 1) p md = .ok [] := by
    unfold walkD
    simp only [walkStack, hls, hc, if_true]
  refine ⟨h1, ?_⟩
  unfold walkL
  rw [h1]
  rfl

/-- C1 witness: the amended theorem applied to the filesystem whose
listings raise FileNotFoundError. -/
theorem walk_missing_yields_nothing_witness :
    walkD efs 1 (str "b") none = .ok [] ∧ walkL efs 1 (str "b") none = .ok [] :=
  walk_missing_yields_nothing efs 0 (str "b") none .fileNotFound rfl rfl

/-- C2 counterexample: the parent of a lists empty, ls("a") returns only
the entry a/b, so no entry is named a; the claim predicts
FileNotFoundError, but info returns the synthesized directory entry. -/
theorem info_nomatch_counterexample :
    fs2.ls (str "a") = .ok [⟨str "a/b", some (some 1), .file⟩] ∧
    ([⟨str "a/b", some (some 1), FType.file⟩] : List FileInfo).filter
      (fun q => decide (pyRstripSlash q.name = str "a")) = [] ∧
    infoOf fs2 (str "a") = .ok ⟨str "a", some (some 0), .directory⟩ := by
  refine ⟨rfl, by decide, rfl⟩

/-- C2 (amended): given a successful parent listing, info first returns
the entry of that listing whose name (trailing slash stripped) equals the
stripped path whenever one is present (the first such entry); only
otherwise does it list the path itself and classify the matches: exactly
one match returns that entry with its size defaulted to None when absent;
two or more matches return the synthesized directory entry; no match
returns the synthesized directory entry when the listing is nonempty and
raises FileNotFoundError only when the listing is also empty. -/
theorem info_classification (fs : Fs) (p : Str) (l0 : List FileInfo)
    (hp0 : fs.ls (parentPath fs.toFsAttrs (stripProtocol fs.toFsAttrs p)) = .ok l0) :
    (∀ o rest, l0.filter (fun q => decide (pyRstripSlash q.name =
        stripProtocol fs.toFsAttrs p)) = o :: rest →
      infoOf fs p = .ok o) ∧
    (l0.filter (fun q => decide (pyRstripSlash q.name = stripProtocol fs.toFsAttrs p)) = [] →
      ∀ listing, fs.ls (stripProtocol fs.toFsAttrs p) = .ok listing →
        (∀ o, listing.filter (fun q => decide (pyRstripSlash q.name =
            pyRstripSlash (stripProtocol fs.toFsAttrs p))) = [o] →
          infoOf fs p = .ok (withDefaultSize o)) ∧
        (∀ o o2 rest, listing.filter (fun q => decide (pyRstripSlash q.name =
            pyRstripSlash (stripProtocol fs.toFsAttrs p))) = o :: o2 :: rest →
          infoOf fs p =
            .ok ⟨pyRstripSlash (stripProtocol fs.toFsAttrs p), some (some 0), .directory⟩) ∧
        (listing.filter (fun q => decide (pyRstripSlash q.name =
            pyRstripSlash (stripProtocol fs.toFsAttrs p))) = [] → listing ≠ [] →
          infoOf fs p =
            .ok ⟨pyRstripSlash (stripProtocol fs.toFsAttrs p), some (some 0), .directory⟩) ∧
        (listing.filter (fun q => decide (pyRstripSlash q.name =
            pyRstripSlash (stripProtocol fs.toFsAttrs p))) = [] → listing = [] →
          infoOf fs p = .error .fileNotFound)) := by
  constructor
  · intro o rest hf
    simp only [infoOf, hp0, hf]
  · intro hnone listing hl
    refine ⟨?_, ?_, ?_, ?_⟩
    · intro o hf
      simp only [infoOf, hp0, hnone, hl, hf]
    · intro o o2 rest hf
      simp only [infoOf, hp0, hnone, hl, hf]
    · intro hf hne
      simp only [infoOf, hp0, hnone, hl, hf]
      cases listing with
      | nil => exact absurd rfl hne
      | cons x t => rfl
    · intro hf hnil
      subst hnil
      simp only [infoOf, hp0, hnone, hl, hf]
      rfl

/-- C2 witness: the classification theorem at two concrete inputs: the
parent-hit fast path on a filesystem whose root lists the file a, and the
no-match nonempty-listing fallback of the counterexample filesystem. -/
theorem info_classification_witness :
    infoOf gfs (str "a") = .ok ⟨str "a", some (some 3), FType.file⟩ ∧
    infoOf fs2 (str "a") = .ok ⟨str "a", some (some 0), FType.directory⟩ :=
  ⟨(info_classification gfs (str "a") [⟨str "a", some (some 3), FType.file⟩] rfl).1
      ⟨str "a", some (some 3), FType.file⟩ [] (by decide),
   ((info_classification fs2 (str "a") [] rfl).2 rfl [⟨str "a/b", some (some 1), FType.file⟩]
      rfl).2.2.1 (by decide) (by decide)⟩

theorem mem_stripProtos : ∀ (protos : List Str) (p : Str) (x : Char),
    x ∈ stripProtos protos p → x ∈ p := by
  intro protos
  induction protos with
  | nil => intro p x h; exact h
  | cons proto rest ih =>
      intro p x h
      simp only [stripProtos] at h
      have h2 := ih _ x h
      split at h2
      · exact List.mem_of_mem_drop h2
      · split at h2
        · exact List.mem_of_mem_drop h2
        · exact h2

theorem mem_pyRstripSlash (s : Str) (x : Char) (h : x ∈ pyRstripSlash s) : x ∈ s := by
  unfold pyRstripSlash at h
  rw [List.mem_reverse] at h
  exact List.mem_reverse.mp (List.Sublist.mem h (List.dropWhile_sublist _))

theorem hasMagic_stripProtocol (a : FsAttrs) (p : Str)
    (h1 : hasMagic p = false) (h2 : hasMagic a.rootMarker = false) :
    hasMagic (stripProtocol a p) = false := by
  unfold stripProtocol
  by_cases h : pyRstripSlash (stripProtos a.protos p) = []
  · simpa [h] using h2
  · simp only [h, if_false]
    unfold hasMagic at h1 ⊢
    rw [List.any_eq_false] at h1 ⊢
    intro x hx
    exact h1 x (mem_stripProtos a.protos p x (mem_pyRstripSlash _ x hx))

/-- C6 counterexample: the literal pattern abstract://a has no magic
character, no trailing slash and exists on the filesystem, but glob
returns the stripped path [a], not [abstract://a]. -/
theorem glob_literal_counterexample :
    hasMagic (str "abstract://a") = false ∧
    pyEndsWithSlash (str "abstract://a") = false ∧
    pyExists gfs (str "abstract://a") = true ∧
    globLit gfs (str "abstract://a") = some [str "a"] ∧
    str "a" ≠ str "abstract://a" := by decide

/-- C6 (amended): for a pattern without magic characters (over a class
whose root_marker has none) and without a trailing slash, glob returns
[strip_protocol(p)] when the stripped path exists and [] otherwise. -/
theorem glob_literal_roundtrip (fs : Fs) (p : Str)
    (h1 : hasMagic p = false) (h2 : hasMagic fs.rootMarker = false)
    (h3 : pyEndsWithSlash p = false) :
    globLit fs p = some (if pyExists fs (stripProtocol fs.toFsAttrs p)
      then [stripProtocol fs.toFsAttrs p] else []) := by
  have hm := hasMagic_stripProtocol fs.toFsAttrs p h1 h2
  simp only [globLit, hm, h3, Bool.false_eq_true, if_false]

/-- C6 witness: the amended round trip evaluated at the nonexistent
literal path b. -/
theorem glob_literal_roundtrip_witness :
    globLit gfs (str "b") = some (if pyExists gfs (stripProtocol gfs.toFsAttrs (str "b"))
      then [stripProtocol gfs.toFsAttrs (str "b")] else []) :=
  glob_literal_roundtrip gfs (str "b") (by decide) (by decide) (by decide)

/-- C4: for a cachable class, constructing twice in the same process and
thread with equal args and options returns the physically identical
handle (the second construction returns the cached object); with
skip_instance_cache set, a fresh handle distinct from every cached one is
built and the cache is left unchanged. -/
theorem instance_cache_idempotent (cls : Cls) (st : CacheState) (pid tid args : Nat) (kw : Kw)
    (hc : cls.cachable = true) (hpid : st.pid = pid)
    (hwf : ∀ t h, (t, h) ∈ st.cache → h < st.next) :
    ((cls.applyConfig kw).skip.getD false = false →
      (cachedCall cls pid tid (cachedCall cls pid tid st args kw).2 args kw).1 =
        (cachedCall cls pid tid st args kw).1) ∧
    ((cls.applyConfig kw).skip.getD false = true →
      (cachedCall cls pid tid st args kw).2.cache = st.cache ∧
      ∀ t h, (t, h) ∈ st.cache → h ≠ (cachedCall cls pid tid st args kw).1) := by
  subst hpid
  constructor
  · intro hskip
    cases hg : cacheGet st.cache (cls.id, st.pid, tid, args, cls.extraTokens, cls.applyConfig kw) with
    | some h => simp [cachedCall, hskip, hc, hg, cacheGet]
    | none => simp [cachedCall, hskip, hc, hg, cacheGet]
  · intro hskip
    constructor
    · simp [cachedCall, hskip, hc]
    · intro t h hmem
      have hlt := hwf t h hmem
      simp only [cachedCall, hskip, hc]
      simp only [ne_eq, not_true_eq_false, Bool.not_eq_true, if_false]
      simp
      omega

/-- C4 witness: the idempotence theorem at a concrete cachable class,
empty cache, matching pid. -/
theorem instance_cache_idempotent_witness :
    ((cls0.applyConfig kw0).skip.getD false = false →
      (cachedCall cls0 7 1 (cachedCall cls0 7 1 cst0 0 kw0).2 0 kw0).1 =
        (cachedCall cls0 7 1 cst0 0 kw0).1) ∧
    ((cls0.applyConfig kw0).skip.getD false = true →
      (cachedCall cls0 7 1 cst0 0 kw0).2.cache = cst0.cache ∧
      ∀ t h, (t, h) ∈ cst0.cache → h ≠ (cachedCall cls0 7 1 cst0 0 kw0).1) :=
  instance_cache_idempotent cls0 cst0 7 1 0 kw0 rfl rfl
    (fun _ _ hm => absurd hm (List.not_mem_nil _))

/-- C7: once a force flush has completed on a write-mode file, every
subsequent write raises and accepts nothing, a second flush(force)
raises, and close is the only permitted continuation: it succeeds,
skipping the final flush and marking the file closed after invalidating
the path and its parent. -/
theorem write_after_force_flush (bk : Backend) (f : WFile)
    (hm : f.mode = .wb ∨ f.mode = .ab) (hf : f.forced = true) :
    (∀ data, ∃ e, bwrite bk f data = .error e) ∧
    (∃ e, wflush bk true f = .error e) ∧
    (f.closed = false → ∀ a fst, wclose a bk f fst =
      .ok ({ f with closed := true },
        invalidateCache (invalidateCache fst (some f.path)) (some (parentPath a f.path)))) := by
  refine ⟨?_, ?_, ?_⟩
  · intro data
    by_cases hcl : f.closed
    · exact ⟨.valueError, by simp [bwrite, hm, hcl]⟩
    · exact ⟨.valueError, by simp [bwrite, hm, hcl, hf]⟩
  · by_cases hcl : f.closed
    · exact ⟨.valueError, by simp [wflush, hcl]⟩
    · exact ⟨.valueError, by simp [wflush, hcl, hf]⟩
  · intro hcl a fst
    have hrb : ¬ f.mode = .rb := by rcases hm with h | h <;> simp [h]
    simp [wclose, hcl, hrb, hf]

/-- C7 witness: the theorem applied to a concrete force-flushed
write-mode file. -/
theorem write_after_force_flush_witness :
    (∃ e, bwrite bk0 wf0 [1, 2] = .error e) ∧ (∃ e, wflush bk0 true wf0 = .error e) :=
  ⟨(write_after_force_flush bk0 wf0 (Or.inl rfl) rfl).1 [1, 2],
   (write_after_force_flush bk0 wf0 (Or.inl rfl) rfl).2.1⟩


theorem fetch_take (c : List Nat) (s n : Nat) :
    fetchRange c s ((s : Int) + (n : Int)) = (c.drop s).take n := by
  unfold fetchRange
  rw [List.take_eq_take]
  simp only [List.length_drop]
  rcases le_total ((s : Int) + (n : Int)) ((c.length : Int)) with h | h
  · rw [min_eq_left h]
    omega
  · rw [min_eq_right h]
    omega

theorem bread_take (f : RFile) (n : Nat) (hm : f.mode = .rb) (hc : f.closed = false)
    (hn : 0 < n) :
    bread f (Int.ofNat n) = .ok ((f.content.drop f.loc).take n,
      { f with loc := f.loc + ((f.content.drop f.loc).take n).length }) := by
  have h1 : ¬ ((n : Int) < 0) := by omega
  have h2 : ¬ ((n : Int) = 0) := by omega
  simp only [bread, Int.ofNat_eq_coe, hm, hc, if_neg h1, if_neg h2]
  simp only [eq_self_iff_true, not_true, if_false, Bool.false_eq_true, ite_false]
  rw [fetch_take]

theorem pyFind_cons (b x : Nat) (t : List Nat) :
    pyFind (x :: t) [b] = if [b].isPrefixOf (x :: t) then some 0
      else (pyFind t [b]).map (fun i => i + 1) := rfl

theorem pyFind_single_none (b : Nat) : ∀ l : List Nat, pyFind l [b] = none → b ∉ l := by
  intro l
  induction l with
  | nil => intro _; simp
  | cons x t ih =>
      intro h
      rw [pyFind_cons] at h
      split at h
      · exact absurd h (by simp)
      · rename_i hpre
        have hbx : b ≠ x := by
          intro he
          subst he
          exact hpre (by simp [List.isPrefixOf])
        have ht : pyFind t [b] = none := by
          cases hf : pyFind t [b] with
          | none => rfl
          | some i => rw [hf] at h; exact absurd h (by simp)
        rw [List.mem_cons]
        push_neg
        exact ⟨hbx, ih ht⟩

theorem pyFind_single_some (b : Nat) : ∀ (l : List Nat) (i : Nat), pyFind l [b] = some i →
    b ∈ l ∧ i + 1 ≤ l.length ∧ firstSegIncl b l = l.take (i + 1) := by
  intro l
  induction l with
  | nil =>
      intro i h
      unfold pyFind at h
      simp [List.isPrefixOf] at h
  | cons x t ih =>
      intro i h
      rw [pyFind_cons] at h
      split at h
      · rename_i hpre
        have hbx : b = x := by simpa [List.isPrefixOf] using hpre
        have hi : i = 0 := by
          have := Option.some.inj h
          omega
        subst hi
        subst hbx
        refine ⟨by simp, by simp, ?_⟩
        simp [firstSegIncl]
      · rename_i hpre
        cases hf : pyFind t [b] with
        | none => rw [hf] at h; exact absurd h (by simp)
        | some j =>
            rw [hf] at h
            simp only [Option.map_some'] at h
            have hij : i = j + 1 := (Option.some.inj h).symm
            subst hij
            obtain ⟨hmem, hlen, hseg⟩ := ih j hf
            have hbx : b ≠ x := by
              intro he
              subst he
              exact hpre (by simp [List.isPrefixOf])
            refine ⟨List.mem_cons_of_mem _ hmem, by simp; omega, ?_⟩
            have hxb : ¬ x = b := fun he => hbx he.symm
            simp only [firstSegIncl, hxb, if_false, List.take_succ_cons, hseg]

theorem fsi_append_not_mem (b : Nat) :
    ∀ t r : List Nat, b ∉ t → firstSegIncl b (t ++ r) = t ++ firstSegIncl b r := by
  intro t
  induction t with
  | nil => intro r _; simp
  | cons x s ih =>
      intro r h
      rw [List.mem_cons] at h
      push_neg at h
      have hxb : ¬ x = b := fun he => h.1 he.symm
      simp only [List.cons_append, firstSegIncl, hxb, if_false]
      exact congrArg (fun z => x :: z) (ih r h.2)

theorem fsi_append_mem (b : Nat) :
    ∀ t r : List Nat, b ∈ t → firstSegIncl b (t ++ r) = firstSegIncl b t := by
  intro t
  induction t with
  | nil => intro r h; exact absurd h (by simp)
  | cons x s ih =>
      intro r h
      by_cases hxb : x = b
      · simp [firstSegIncl, hxb]
      · have hbs : b ∈ s := by
          rcases List.mem_cons.mp h with h1 | h1
          · exact absurd h1.symm hxb
          · exact h1
        simp only [List.cons_append, firstSegIncl, hxb, if_false]
        exact congrArg (fun z => x :: z) (ih r hbs)

theorem readuntil_spec (b : Nat) (blocks : Option Nat) :
    ∀ (fuel : Nat) (f : RFile), f.mode = .rb → f.closed = false →
      0 < resolveBlocks blocks f → f.size - f.loc < fuel →
      readuntil [b] blocks fuel f =
        .ok (firstSegIncl b (f.content.drop f.loc),
             { f with loc := f.loc + (firstSegIncl b (f.content.drop f.loc)).length }) := by
  intro fuel
  induction fuel with
  | zero => intro f _ _ _ hfuel; omega
  | succ fuel ih =>
      intro f hm hc hn hfuel
      have hb := bread_take f (resolveBlocks blocks f) hm hc hn
      set part := (f.content.drop f.loc).take (resolveBlocks blocks f) with hpart
      set f1 : RFile := { f with loc := f.loc + part.length } with hf1
      have hrem_split : f.content.drop f.loc = part ++ (f.content.drop f.loc).drop part.length := by
        rw [hpart, List.length_take]
        rcases le_total (resolveBlocks blocks f) (f.content.drop f.loc).length with hle | hle
        · rw [min_eq_left hle, List.take_append_drop]
        · rw [min_eq_right hle, List.take_of_length_le hle, List.drop_length, List.append_nil]
      by_cases hp : part = []
      · have hrem : f.content.drop f.loc = [] := by
          cases hrm : f.content.drop f.loc with
          | nil => rfl
          | cons y ys =>
              rw [hpart, hrm] at hp
              rw [List.take_eq_nil_iff] at hp
              rcases hp with h1 | h1
              · omega
              · exact absurd h1 (by simp)
        simp only [readuntil]
        rw [hb]
        dsimp only
        rw [if_pos hp, hrem]
        rw [hf1, hp]
        simp [firstSegIncl]
      · cases hfind : pyFind part [b] with
        | some i =>
            obtain ⟨hmem, hlen, hseg⟩ := pyFind_single_some b part i hfind
            have hfsi : firstSegIncl b (f.content.drop f.loc) = part.take (i + 1) := by
              conv_lhs => rw [hrem_split]
              rw [fsi_append_mem b part _ hmem, hseg]
            have hflen : (part.take (i + 1)).length = i + 1 := by
              rw [List.length_take]
              omega
            have hseek : bseek f1 (Int.ofNat (f.loc + i + 1)) 0 =
                .ok (f.loc + i + 1, { f1 with loc := f.loc + i + 1 }) := by
              unfold bseek
              rw [if_neg (show ¬ ¬ f1.mode = Mode.rb from
                fun h => h (show f1.mode = Mode.rb from hm))]
              dsimp only
              rw [if_neg (show ¬ (Int.ofNat (f.loc + i + 1) < 0) by
                rw [Int.ofNat_eq_coe]; omega)]
              rw [Int.ofNat_eq_coe, Int.toNat_ofNat]
            simp only [readuntil]
            rw [hb]
            dsimp only
            rw [if_neg hp, hfind]
            dsimp only
            simp only [List.length_cons, List.length_nil, Nat.zero_add]
            rw [hseek]
            dsimp only
            rw [hfsi, hflen]
            simp [Nat.add_assoc]
        | none =>
            have hnm : b ∉ part := pyFind_single_none b part hfind
            have hge : 1 ≤ part.length := by
              cases pq : part with
              | nil => exact absurd pq hp
              | cons y ys => simp [pq]
            have hmode1 : f1.mode = Mode.rb := hm
            have hclosed1 : f1.closed = false := hc
            have hres1 : resolveBlocks blocks f1 = resolveBlocks blocks f := by
              cases blocks <;> rfl
            have hsz : f1.size = f.size := rfl
            have hsz2 : f.size = f.content.length := rfl
            have hloc1 : f1.loc = f.loc + part.length := rfl
            have hremne : f.content.drop f.loc ≠ [] := by
              intro he
              rw [hpart, he] at hp
              exact hp (by simp)
            have hlt : f.loc < f.content.length := by
              by_contra hge2
              exact hremne (List.drop_eq_nil_of_le (by omega))
            have hrec := ih f1 hmode1 hclosed1 (by rw [hres1]; exact hn) (by omega)
            have hdrop : f1.content.drop f1.loc = (f.content.drop f.loc).drop part.length := by
              show f.content.drop (f.loc + part.length) = (f.content.drop f.loc).drop part.length
              rw [List.drop_drop, Nat.add_comm]
            rw [hdrop] at hrec
            have hfsi : firstSegIncl b (f.content.drop f.loc) =
                part ++ firstSegIncl b ((f.content.drop f.loc).drop part.length) := by
              conv_lhs => rw [hrem_split]
              exact fsi_append_not_mem b part _ hnm
            simp only [readuntil]
            rw [hb]
            dsimp only
            rw [if_neg hp, hfind]
            dsimp only
            rw [hrec]
            dsimp only
            rw [hfsi]
            simp [hf1, List.length_append, Nat.add_assoc]

/-- C10 counterexample: with block size one and the two-byte delimiter ab
over the content abX, the delimiter spans a block boundary, the per-block
scan misses it, and readuntil returns all three bytes: the returned data
contains the delimiter yet does not end at its first occurrence. -/
theorem readuntil_multibyte_counterexample :
    readuntil [97, 98] none 5 rfc = .ok ([97, 98, 88], { rfc with loc := 3 }) ∧
    pyFind [97, 98, 88] [97, 98] = some 0 ∧
    endAtFirstOcc (rfc.content.drop 0) [97, 98] = [97, 98] ∧
    ([97, 98, 88] : List Nat) ≠ [97, 98] :=
  ⟨rfl, rfl, rfl, by decide⟩

/-- C10 (amended, delimiter of one byte, which cannot span blocks):
readuntil returns the prefix of the remaining bytes through the first
occurrence of the delimiter (to the end of file when absent) and leaves
the position exactly after the returned bytes; in particular when the
delimiter occurs in the returned r, r ends at its first occurrence
(delimiter included) and the position is the start plus r.length. -/
theorem readuntil_single_byte_delim (b : Nat) (blocks : Option Nat) (fuel : Nat) (f : RFile)
    (hm : f.mode = .rb) (hc : f.closed = false) (hn : 0 < resolveBlocks blocks f)
    (hfuel : f.size - f.loc < fuel) :
    ∃ r f2, readuntil [b] blocks fuel f = .ok (r, f2) ∧
      (b ∈ r → r = firstSegIncl b (f.content.drop f.loc)) ∧
      f2.loc = f.loc + r.length :=
  ⟨firstSegIncl b (f.content.drop f.loc),
   { f with loc := f.loc + (firstSegIncl b (f.content.drop f.loc)).length },
   readuntil_spec b blocks fuel f hm hc hn hfuel, fun _ => rfl, rfl⟩

/-- C10 witness: the amended theorem evaluated on a concrete readable
file whose content holds the newline delimiter. -/
theorem readuntil_single_byte_delim_witness :
    ∃ r f2, readuntil [10] none 5 rf10 = .ok (r, f2) ∧
      (10 ∈ r → r = firstSegIncl 10 (rf10.content.drop rf10.loc)) ∧
      f2.loc = rf10.loc + r.length :=
  readuntil_single_byte_delim 10 none 5 rf10 rfl rfl (by decide) (by decide)
